import Mathlib

/-!
# Verification of the muonsoft/errors error-chain library

Shallow embedding of the Go package github.com/muonsoft/errors
(errors.go, logging.go, options.go, join.go, stack.go) together with
proofs of the specified properties of its error-chain composition
engine: idempotent stack capture, wrapping, joining, traversal,
logging hand-off and JSON serialization.

Stack capture (newStack / runtime.Callers) reads the process call
stack, an out-of-scope platform primitive per the specification, so
every construction entry point takes the captured call-site stack as
an explicit parameter; likewise frame resolution
(runtime.FuncForPC) is passed in as an abstract resolver.
-/

set_option autoImplicit false

namespace MuonsoftErrors

/-- A program counter value (Go uintptr) recorded in a captured stack. -/
abbrev PC := Nat

/-- Model of the raw program-counter stack produced by newStack at a
construction call site (stack.go: callers / newStack). -/
abbrev Stack := List PC

/-- Error fields for structured logging (options.go / logging.go).
The Go package represents a field as an interface with one concrete
struct per typed variant (BoolField, IntField, UintField, FloatField,
StringField, StringsField, ValueField, TimeField, DurationField,
JSONField); each variant holds a key and a typed value.  Payloads
whose carrier is host-specific (float64 bit patterns, time.Time,
time.Duration, arbitrary values, raw JSON bytes) are modelled by
opaque tokens that the library never inspects. -/
inductive Field where
  | boolF (key : String) (value : Bool)
  | intF (key : String) (value : Int)
  | uintF (key : String) (value : Nat)
  | floatF (key : String) (bits : Nat)
  | stringF (key : String) (value : String)
  | stringsF (key : String) (values : List String)
  | valueF (key : String) (value : String)
  | timeF (key : String) (instant : Nat)
  | durationF (key : String) (value : Int)
  | jsonF (key : String) (raw : String)
  deriving DecidableEq, Repr

/-- The key of a field (each Go field struct exposes its Key). -/
def Field.key : Field → String
  | .boolF k _ => k
  | .intF k _ => k
  | .uintF k _ => k
  | .floatF k _ => k
  | .stringF k _ => k
  | .stringsF k _ => k
  | .valueF k _ => k
  | .timeF k _ => k
  | .durationF k _ => k
  | .jsonF k _ => k

/-- Error values reachable in a program using the package.

  * base: a plain leaf error without Unwrap (errors.New sentinel or any
    foreign leaf error); its Error text is the stored message.
  * fmtE: the result of fmt.Errorf, a foreign node that is not a
    package wrapper and carries no stack; it optionally unwraps to a
    single embedded error (the error at the first percent-w verb).
    Its formatted text is opaque to the package and stored as given.
  * wrappedE: the package type wrapped (errors.go): inner error plus
    attached fields, satisfies the unexported wrapper interface,
    single-target Unwrap to the inner error, no stack of its own.
  * stackedE: the package type stacked (errors.go): a wrapped plus a
    captured stack; satisfies wrapper and stackTracer.
  * joinE: the package type joinError (join.go): peer errors with
    multi-way Unwrap returning a list, hence invisible to the
    single-target standard Unwrap; not a wrapper, not a stackTracer. -/
inductive Err where
  | base (msg : String)
  | fmtE (msg : String) (inner : Option Err)
  | wrappedE (fields : List Field) (inner : Err)
  | stackedE (fields : List Field) (stack : Stack) (inner : Err)
  | joinE (errs : List Err)
  deriving Repr

mutual

/-- Structural equality of error values, modelling Go interface
equality of error values (used by the standard errors.Is). -/
def Err.beq : Err → Err → Bool
  | .base m, .base m' => m == m'
  | .fmtE m none, .fmtE m' none => m == m'
  | .fmtE m (some i), .fmtE m' (some i') => m == m' && Err.beq i i'
  | .wrappedE fs i, .wrappedE fs' i' => fs == fs' && Err.beq i i'
  | .stackedE fs st i, .stackedE fs' st' i' =>
    fs == fs' && st == st' && Err.beq i i'
  | .joinE es, .joinE es' => Err.beqList es es'
  | _, _ => false

/-- Pointwise structural equality of member lists. -/
def Err.beqList : List Err → List Err → Bool
  | [], [] => true
  | e :: es, e' :: es' => Err.beq e e' && Err.beqList es es'
  | _, _ => false

end

instance : BEq Err := ⟨Err.beq⟩

/-- Single-target Unwrap (standard errors.Unwrap): defined for wrapped
and stacked (method Unwrap() error) and for the fmt wrapper; nil for
leaves and for joinError, whose Unwrap() returns a list and therefore
does not match the single-target signature. -/
def unwrap1 : Err → Option Err
  | .base _ => none
  | .fmtE _ i => i
  | .wrappedE _ i => some i
  | .stackedE _ _ i => some i
  | .joinE _ => none

/-- Error() message text.
wrapped.Error() and stacked.Error() return the inner Error();
joinError.Error() concatenates the members' texts with a newline
between each pair (join.go). -/
def errMsg : Err → String
  | .base m => m
  | .fmtE m _ => m
  | .wrappedE _ i => errMsg i
  | .stackedE _ _ i => errMsg i
  | .joinE es => String.intercalate "\n" (errMsgList es)
where
  /-- Error texts of the members of a join, in order. -/
  errMsgList : List Err → List String
    | [] => []
    | e :: es => errMsg e :: errMsgList es

/-- isWrapper (errors.go): reports whether any error in the chain of
err reached by single-target Unwrap satisfies the unexported wrapper
interface, i.e. is a wrapped or stacked node (computed by As with the
wrapper target). -/
def isWrapperB : Err → Bool
  | .base _ => false
  | .fmtE _ none => false
  | .fmtE _ (some i) => isWrapperB i
  | .wrappedE _ _ => true
  | .stackedE _ _ _ => true
  | .joinE _ => false

/-- Whether the single-target Unwrap chain of an error contains a node
carrying a stack snapshot (a stackTracer, i.e. a stacked node).  This
is the capability "carries stack" of the specification. -/
def hasStack : Err → Bool
  | .base _ => false
  | .fmtE _ none => false
  | .fmtE _ (some i) => hasStack i
  | .wrappedE _ i => hasStack i
  | .stackedE _ _ _ => true
  | .joinE _ => false

/-- Number of stack-carrying nodes met when walking the chain from the
outermost node by repeated single-target Unwrap. -/
def chainCountStacks : Err → Nat
  | .base _ => 0
  | .fmtE _ none => 0
  | .fmtE _ (some i) => chainCountStacks i
  | .wrappedE _ i => chainCountStacks i
  | .stackedE _ _ i => 1 + chainCountStacks i
  | .joinE _ => 0

/-- All fields met on the single-target Unwrap chain, outermost first,
each node's own fields in attachment order (traversal order of the
Format, MarshalJSON and Log walks). -/
def chainFields : Err → List Field
  | .base _ => []
  | .fmtE _ none => []
  | .fmtE _ (some i) => chainFields i
  | .wrappedE fs i => fs ++ chainFields i
  | .stackedE fs _ i => fs ++ chainFields i
  | .joinE _ => []

/-- All stack snapshots met on the single-target Unwrap chain,
outermost first. -/
def chainStacks : Err → List Stack
  | .base _ => []
  | .fmtE _ none => []
  | .fmtE _ (some i) => chainStacks i
  | .wrappedE _ i => chainStacks i
  | .stackedE _ st i => st :: chainStacks i
  | .joinE _ => []

/-- All program counters appearing in stack snapshots on the chain. -/
def chainFrames (e : Err) : List PC := (chainStacks e).flatten

/-- Options (options.go): accumulated skip-caller count and field
list.  Each concrete Option either increments skipCallers or appends
one Field. -/
structure Options where
  skipCallers : Nat
  fields : List Field
  deriving DecidableEq, Repr

/-- A single Option value (options.go): SkipCaller, or one of the ten
typed field options (Bool, Int, Uint, Float, String, Strings, Value,
Time, Duration, JSON), each of which appends its Field. -/
inductive Opt where
  | skipCaller
  | fieldOpt (f : Field)
  deriving DecidableEq, Repr

/-- Application of one Option to an Options accumulator. -/
def applyOpt (o : Options) : Opt → Options
  | .skipCaller => { o with skipCallers := o.skipCallers + 1 }
  | .fieldOpt f => { o with fields := o.fields ++ [f] }

/-- newOptions (options.go): fold the option list over the zero
accumulator. -/
def newOptions (options : List Opt) : Options :=
  options.foldl applyOpt ⟨0, []⟩

/-- The body of Wrap (errors.go) for a non-nil argument: a fields-only
wrapped node when the argument chain already satisfies isWrapper,
otherwise a stacked node owning the fields and a stack newly captured
at the call site. -/
def wrapNonNil (site : Stack) (options : List Opt) (err : Err) : Err :=
  if isWrapperB err then .wrappedE (newOptions options).fields err
  else .stackedE (newOptions options).fields site err

/-- Wrap (errors.go): returns nil on nil input, otherwise wrapNonNil.
The site parameter stands for the stack captured by
newStack(opts.skipCallers) at the point Wrap is called. -/
def Wrap (site : Stack) (options : List Opt) : Option Err → Option Err
  | none => none
  | some err => some (wrapNonNil site options err)

/-- Join (join.go).  The source first counts the non-nil members: zero
gives nil; exactly one gives that member itself when it already
satisfies isWrapper and otherwise a stacked node over it; two or more
give a stacked node over a joinError holding the non-nil members in
order (the source collects them by one append per non-nil member,
which is the filterMap below).  The site parameter stands for the
stack captured by newStack(0) at the Join call site. -/
def Join (site : Stack) (errs : List (Option Err)) : Option Err :=
  match errs.filterMap id with
  | [] => none
  | [e] =>
    if isWrapperB e then some e
    else some (.stackedE [] site e)
  | es => some (.stackedE [] site (.joinE es))

/-- Modelled from the spec: the originate-with-message construction
entry point Error (the message-with-stack constructor), whose source
file is not present in the repository snapshot (only its tests and
documentation are).  Per the specification it builds a fresh
error-with-message-and-stack directly and always captures a snapshot:
a stacked node over a fresh leaf carrying the message. -/
def ErrorC (site : Stack) (message : String) : Err :=
  .stackedE [] site (.base message)

/-! ## Errorf: argument splitting, the percent-w scanner and the
formatted construction entry point (errors.go) -/

/-- A non-Option value passed among the variadic arguments of Errorf:
either an error value or any other operand (opaque). -/
inductive Val where
  | errV (e : Err)
  | strV (s : String)
  deriving Repr

/-- One element of the variadic argsAndOptions list of Errorf: a value
whose dynamic type is Option, or any other value. -/
inductive Arg where
  | optA (o : Opt)
  | valA (v : Val)
  deriving Repr

/-- Whether a variadic element has dynamic type Option (the type
assertion in splitArgsAndOptions). -/
def Arg.isOpt : Arg → Bool
  | .optA _ => true
  | .valA _ => false

/-- splitArgsAndOptions (errors.go): scan from the end of the list
while elements are Option values, decrementing the argument count, and
stop at the first non-Option from the end; the prefix is passed to
formatting and the suffix, in order, is the option list. -/
def splitArgsAndOptions (argsAndOptions : List Arg) : List Arg × List Opt :=
  let argsCount := go argsAndOptions.reverse argsAndOptions.length
  ( argsAndOptions.take argsCount,
    (argsAndOptions.drop argsCount).filterMap fun a =>
      match a with
      | .optA o => some o
      | .valA _ => none )
where
  /-- The downward loop of the source: starting from the full length,
  subtract one for each Option in the trailing run (scanning the
  reversed list is the source's backward iteration). -/
  go : List Arg → Nat → Nat
    | .optA _ :: rest, n => go rest (n - 1)
    | _, n => n

/-- getErrorIndex (errors.go): the state-machine scan of the format
string that counts the operands consumed by formatting verbs and
returns the operand index of the first percent-w verb, or minus one
when there is none.  A percent followed by a percent is a literal and
consumes no operand. -/
def getErrorIndex (message : String) : Int :=
  go message.data (-1) false
where
  go : List Char → Int → Bool → Int
    | [], _, _ => -1
    | c :: rest, i, isFormat =>
      if isFormat then
        if c ≠ '%' then
          let i := i + 1
          if c = 'w' then i else go rest i false
        else go rest i false
      else if c = '%' then go rest i true
      else go rest i false

/-- getArgError (errors.go): the error among the formatting arguments
at the first percent-w position, when that position is in range and
the argument there is an error value; nil otherwise. -/
def getArgError (message : String) (args : List Arg) : Option Err :=
  if 0 ≤ getErrorIndex message ∧ getErrorIndex message < (args.length : Int) then
    match args.get? (getErrorIndex message).toNat with
    | some (.valA (.errV e)) => some e
    | _ => none
  else none

/-- Modelled from the spec: fmt.Errorf is the host language's
formatted-error-from-template idiom, out of scope as a collaborator.
It is modelled as a foreign node whose text is opaque (represented
here by the format string, since the package never inspects it) and
which, per the specification's first-match-wins policy, unwraps to the
error embedded at the first percent-w verb when one is present. -/
def fmtErrorf (message : String) (args : List Arg) : Err :=
  .fmtE message (getArgError message args)

/-- Errorf (errors.go): split the variadic list into formatting
arguments and options, format the message, and wrap it: fields-only
when the error embedded at the first percent-w verb satisfies
isWrapper, otherwise a stacked node with the stack captured at the
call site (the site parameter models newStack(opts.skipCallers)). -/
def Errorf (site : Stack) (message : String) (argsAndOptions : List Arg) : Err :=
  match getArgError message (splitArgsAndOptions argsAndOptions).1 with
  | some argError =>
    if isWrapperB argError then
      .wrappedE (newOptions (splitArgsAndOptions argsAndOptions).2).fields
        (fmtErrorf message (splitArgsAndOptions argsAndOptions).1)
    else
      .stackedE (newOptions (splitArgsAndOptions argsAndOptions).2).fields site
        (fmtErrorf message (splitArgsAndOptions argsAndOptions).1)
  | none =>
    .stackedE (newOptions (splitArgsAndOptions argsAndOptions).2).fields site
      (fmtErrorf message (splitArgsAndOptions argsAndOptions).1)

/-- The error values contained in a variadic argument list. -/
def errsOfArgs (l : List Arg) : List Err :=
  l.filterMap fun a =>
    match a with
    | .valA (.errV e) => some e
    | _ => none

/-! ## The logging hand-off (logging.go) -/

/-- One interaction pushed to a field sink during the traversal. -/
inductive SinkEvent where
  | setStack (trace : Stack)
  | setField (f : Field)
  deriving DecidableEq, Repr

/-- The traversal loop of Log (logging.go): walk from the outermost
node by the standard single-target Unwrap; at each node, push the
stack snapshot when the node is a stackTracer, then push its fields in
attachment order when the node carries fields.  A joinError is neither
a stackTracer nor a field carrier and its multi-way Unwrap does not
match the single-target protocol, so the walk ends there. -/
def logEvents : Err → List SinkEvent
  | .base _ => []
  | .fmtE _ none => []
  | .fmtE _ (some i) => logEvents i
  | .wrappedE fs i => fs.map .setField ++ logEvents i
  | .stackedE fs st i => .setStack st :: (fs.map .setField ++ logEvents i)
  | .joinE _ => []

/-- Log (logging.go): nothing on nil; otherwise the traversal events
followed by the final commit of the message text. -/
def Log : Option Err → List SinkEvent × Option String
  | none => ([], none)
  | some err => (logEvents err, some (errMsg err))

/-- Replace, along the single-target Unwrap chain, the member list of
every join node by the empty list, leaving every other node intact.
Used to state that joined peers contribute nothing to the sink. -/
def pruneJoins : Err → Err
  | .base m => .base m
  | .fmtE m none => .fmtE m none
  | .fmtE m (some i) => .fmtE m (some (pruneJoins i))
  | .wrappedE fs i => .wrappedE fs (pruneJoins i)
  | .stackedE fs st i => .stackedE fs st (pruneJoins i)
  | .joinE _ => .joinE []

/-! ## Chain matching (standard errors.Is as aliased by the package) -/

mutual

/-- The standard errors.Is walk: the error matches the target when it
equals it, and otherwise the walk recurses through single-target
Unwrap, or through every member for a multi-way Unwrap (joinError).
None of the modelled node types declares an Is method. -/
def isMatch : Err → Err → Bool
  | e, t =>
    (e == t) ||
    match e with
    | .base _ => false
    | .fmtE _ none => false
    | .fmtE _ (some i) => isMatch i t
    | .wrappedE _ i => isMatch i t
    | .stackedE _ _ i => isMatch i t
    | .joinE es => isMatchAny es t

/-- The member loop of the multi-way Unwrap case. -/
def isMatchAny : List Err → Err → Bool
  | [], _ => false
  | e :: es, t => isMatch e t || isMatchAny es t

end

/-! ## JSON marshalling (errors.go: mapWriter, wrapped.MarshalJSON,
stacked.MarshalJSON) -/

/-- A JSON-natural value stored under a key of the flat object. -/
inductive JVal where
  | bJ (x : Bool)
  | iJ (x : Int)
  | uJ (x : Nat)
  | fJ (bits : Nat)
  | sJ (x : String)
  | strsJ (x : List String)
  | vJ (x : String)
  | tJ (instant : Nat)
  | dJ (x : Int)
  | rawJ (x : String)
  | traceJ (x : Stack)
  deriving DecidableEq, Repr

/-- The JSON value a field writes through the mapWriter setters. -/
def Field.jval : Field → JVal
  | .boolF _ v => .bJ v
  | .intF _ v => .iJ v
  | .uintF _ v => .uJ v
  | .floatF _ v => .fJ v
  | .stringF _ v => .sJ v
  | .stringsF _ v => .strsJ v
  | .valueF _ v => .vJ v
  | .timeF _ v => .tJ v
  | .durationF _ v => .dJ v
  | .jsonF _ v => .rawJ v

/-- The flat object built by mapWriter: a Go map from key to value,
modelled as an association list whose set operation overwrites the
entry of an existing key in place and appends a new key. -/
abbrev MapW := List (String × JVal)

/-- Go map assignment m[k] = v. -/
def mset (m : MapW) (k : String) (v : JVal) : MapW :=
  if m.any (fun p => p.1 = k) then
    m.map fun p => if p.1 = k then (k, v) else p
  else m ++ [(k, v)]

/-- Go map lookup m[k]. -/
def mget (m : MapW) (k : String) : Option JVal :=
  (m.find? (fun p => p.1 = k)).map (·.2)

/-- LogFields of a wrapped node applied to a mapWriter: one map
assignment per attached field, in attachment order. -/
def logFieldsTo : List Field → MapW → MapW
  | [], m => m
  | f :: fs, m => logFieldsTo fs (mset m f.key f.jval)

/-- The chain walk of wrapped.MarshalJSON (errors.go): from the
current node, repeatedly push the fields of every LoggableError node
and the snapshot of every stackTracer node into the map, advancing by
the standard single-target Unwrap. -/
def marshalWalk : Err → MapW → MapW
  | .base _, m => m
  | .fmtE _ none, m => m
  | .fmtE _ (some i), m => marshalWalk i m
  | .wrappedE fs i, m => marshalWalk i (logFieldsTo fs m)
  | .stackedE fs st i, m =>
    marshalWalk i (mset (logFieldsTo fs m) "stackTrace" (.traceJ st))
  | .joinE _, m => m

/-- json.Marshal on a package error value dispatches on the dynamic
type.  wrapped.MarshalJSON starts from the map holding the error
message and walks the whole chain; stacked.MarshalJSON sets the
message, then its own snapshot, then its own fields.  The other node
types define no MarshalJSON of their own. -/
def MarshalJSON : Err → Option MapW
  | .wrappedE fs i =>
    some (marshalWalk (.wrappedE fs i) [("error", .sJ (errMsg (.wrappedE fs i)))])
  | .stackedE fs st i =>
    some (logFieldsTo fs
      (mset [("error", .sJ (errMsg (.stackedE fs st i)))] "stackTrace" (.traceJ st)))
  | _ => none

/-! ## Frames and their resolution (stack.go) -/

/-- The resolved source location of a program counter: the result of
the out-of-scope platform primitive runtime.FuncForPC combined with
FileLine, or none when the counter resolves to no function. -/
structure FuncInfo where
  name : String
  file : String
  line : Nat
  deriving DecidableEq, Repr

/-- The resolution primitive, supplied by the platform. -/
abbrev Resolver := Nat → Option FuncInfo

/-- A Frame stores the program counter plus one (stack.go); pc
recovers the counter by subtracting one in uintptr arithmetic. -/
def framePC (f : Nat) : Nat := (f + (2 ^ 64 - 1)) % 2 ^ 64

/-- Frame.Name: the function name, or the sentinel for an
unresolvable counter. -/
def frameName (R : Resolver) (f : Nat) : String :=
  match R (framePC f) with
  | none => "unknown"
  | some fn => fn.name

/-- Frame.File: the source file, or the sentinel for an unresolvable
counter. -/
def frameFile (R : Resolver) (f : Nat) : String :=
  match R (framePC f) with
  | none => "unknown"
  | some fn => fn.file

/-- Frame.Line: the source line, or zero for an unresolvable
counter. -/
def frameLine (R : Resolver) (f : Nat) : Nat :=
  match R (framePC f) with
  | none => 0
  | some fn => fn.line

/-- Frame.String (stack.go): the bare name when it is the unknown
sentinel, otherwise name, space, file, colon, line. -/
def frameString (R : Resolver) (f : Nat) : String :=
  if frameName R f = "unknown" then frameName R f
  else frameName R f ++ " " ++ frameFile R f ++ ":" ++ toString (frameLine R f)

/-- Frame.MarshalJSON (stack.go): an object with the function name,
plus the file unless it is the empty string and the line unless it is
zero (the omitempty rule of the Go struct tags). -/
def frameMarshalJSON (R : Resolver) (f : Nat) : List (String × JVal) :=
  [("function", .sJ (frameName R f))] ++
    (if frameFile R f = "" then [] else [("file", .sJ (frameFile R f))]) ++
    (if frameLine R f = 0 then [] else [("line", .uJ (frameLine R f))])

/-! ## Which error values a Go program can actually hold, and which
chains the construction entry points build -/

/-- The error values reachable in a program using the package: leaves
and fmt wrappers are free, but the unexported node types can only
arise from the construction entry points, so a wrapped node always
wraps an error already satisfying isWrapper. -/
inductive Realizable : Err → Prop
  | baseR (m : String) : Realizable (.base m)
  | fmtNoneR (m : String) : Realizable (.fmtE m none)
  | fmtSomeR (m : String) {i : Err} : Realizable i → Realizable (.fmtE m (some i))
  | wrappedR (fs : List Field) {i : Err} :
      Realizable i → isWrapperB i = true → Realizable (.wrappedE fs i)
  | stackedR (fs : List Field) (st : Stack) {i : Err} :
      Realizable i → Realizable (.stackedE fs st i)
  | joinR {es : List Err} : (∀ e ∈ es, Realizable e) → Realizable (.joinE es)

/-- Chains built purely through the construction entry points.  The
flag is true for the result of an entry-point call and false for a
permissible input to one: a sentinel leaf (errors.New) or a previously
built chain. -/
inductive Built : Bool → Err → Prop
  | seedB (m : String) : Built false (.base m)
  | ofBuilt {e : Err} : Built true e → Built false e
  | wrapB (site : Stack) (options : List Opt) {e : Err} :
      Built false e → Built true (wrapNonNil site options e)
  | errorfB (site : Stack) (message : String) {l : List Arg} :
      (∀ e ∈ errsOfArgs l, Built false e) →
      Built true (Errorf site message l)
  | joinB (site : Stack) {errs : List (Option Err)} {r : Err} :
      (∀ e ∈ errs.filterMap id, Built false e) →
      Join site errs = some r → Built true r
  | errorCB (site : Stack) (message : String) : Built true (ErrorC site message)

/-- Reference reading of the format scanner, for stating the
first-match-wins policy: the characters acting as formatting verbs of
a format string, in order.  A percent escape contributes its following
character unless that character is another percent sign (the literal
escape), which contributes nothing; a trailing lone percent sign also
contributes nothing. -/
def verbs : List Char → List Char
  | [] => []
  | c :: rest =>
    if c = '%' then
      match rest with
      | [] => []
      | d :: t => if d = '%' then verbs t else d :: verbs t
    else verbs rest

/-- The verb characters still to come when the scanner has just
consumed a percent sign. -/
def verbsT : List Char → List Char
  | [] => []
  | d :: t => if d = '%' then verbs t else d :: verbs t

/-- The operand index of the first w verb of a format string, minus
one when there is none: the specification-level reading of
getErrorIndex. -/
def firstWVerb (message : String) : Int :=
  if 'w' ∈ verbs message.data
  then ((verbs message.data).findIdx (fun c => c = 'w') : Int)
  else -1

/-- The value the scanner returns when the verb characters still to
come are vs and the operand counter stands at i: the counter after
advancing past the verbs up to and including the first w verb, or
minus one when no w verb remains. -/
def fwAux (vs : List Char) (i : Int) : Int :=
  if 'w' ∈ vs then i + 1 + ((vs.findIdx fun c => c = 'w') : Int) else -1

/-- The shape of every entry-point result: a fields-only node over a
wrapper chain, or a stack-carrying node whose inner chain holds no
wrapper node. -/
def GoodTop (e : Err) : Prop :=
  (∃ fs i, e = .wrappedE fs i) ∨
  (∃ fs st i, e = .stackedE fs st i ∧ isWrapperB i = false)

/-! ## Helper lemmas -/

mutual

theorem Err.beq_refl_aux : ∀ e : Err, Err.beq e e = true
  | .base m => by simp [Err.beq]
  | .fmtE m none => by simp [Err.beq]
  | .fmtE m (some i) => by simp [Err.beq, Err.beq_refl_aux i]
  | .wrappedE fs i => by simp [Err.beq, Err.beq_refl_aux i]
  | .stackedE fs st i => by simp [Err.beq, Err.beq_refl_aux i]
  | .joinE es => by simp [Err.beq, Err.beqList_refl_aux es]

theorem Err.beqList_refl_aux : ∀ es : List Err, Err.beqList es es = true
  | [] => rfl
  | e :: es => by
    simp [Err.beqList, Err.beq_refl_aux e, Err.beqList_refl_aux es]

end

theorem Err.beq_refl (e : Err) : (e == e) = true :=
  Err.beq_refl_aux e

/-- An error matches itself under the standard Is walk. -/
theorem isMatch_refl (e : Err) : isMatch e e = true := by
  rw [isMatch.eq_def]
  simp [Err.beq_refl]

/-- A member match propagates to the member loop. -/
theorem isMatchAny_of_mem {es : List Err} {e t : Err}
    (hm : e ∈ es) (h : isMatch e t = true) : isMatchAny es t = true := by
  induction es with
  | nil => cases hm
  | cons a as ih =>
    rw [isMatchAny]
    rcases List.mem_cons.mp hm with rfl | hmem
    · simp [h]
    · simp [ih hmem]

theorem errMsgList_eq_map (es : List Err) :
    errMsg.errMsgList es = es.map errMsg := by
  induction es with
  | nil => rfl
  | cons e es ih => rw [errMsg.errMsgList, ih, List.map_cons]

/-- The stack count of a chain is the number of snapshots on it. -/
theorem chainCountStacks_eq_length : ∀ e : Err,
    chainCountStacks e = (chainStacks e).length
  | .base _ => rfl
  | .fmtE _ none => rfl
  | .fmtE _ (some i) => by
    simpa [chainCountStacks, chainStacks] using chainCountStacks_eq_length i
  | .wrappedE _ i => by
    simpa [chainCountStacks, chainStacks] using chainCountStacks_eq_length i
  | .stackedE _ _ i => by
    rw [chainCountStacks, chainStacks, List.length_cons,
      chainCountStacks_eq_length i, Nat.add_comm]
  | .joinE _ => rfl

/-- A chain without wrapper nodes carries no fields. -/
theorem chainFields_eq_nil_of_not_isWrapper : ∀ {e : Err},
    isWrapperB e = false → chainFields e = []
  | .base _, _ => rfl
  | .fmtE _ none, _ => rfl
  | .fmtE _ (some i), h => by
    simp only [isWrapperB] at h
    simpa [chainFields] using chainFields_eq_nil_of_not_isWrapper h
  | .wrappedE _ _, h => by simp [isWrapperB] at h
  | .stackedE _ _ _, h => by simp [isWrapperB] at h
  | .joinE _, _ => rfl

/-- A chain without wrapper nodes carries no snapshots. -/
theorem chainStacks_eq_nil_of_not_isWrapper : ∀ {e : Err},
    isWrapperB e = false → chainStacks e = []
  | .base _, _ => rfl
  | .fmtE _ none, _ => rfl
  | .fmtE _ (some i), h => by
    simp only [isWrapperB] at h
    simpa [chainStacks] using chainStacks_eq_nil_of_not_isWrapper h
  | .wrappedE _ _, h => by simp [isWrapperB] at h
  | .stackedE _ _ _, h => by simp [isWrapperB] at h
  | .joinE _, _ => rfl

/-- Every entry-point result satisfies the wrapper test. -/
theorem GoodTop.isWrapper {e : Err} (h : GoodTop e) : isWrapperB e = true := by
  rcases h with ⟨fs, i, rfl⟩ | ⟨fs, st, i, rfl, _⟩ <;> rfl

/-- Membership of the first-marker error among the argument errors. -/
theorem getArgError_mem {message : String} {args : List Arg} {a : Err}
    (h : getArgError message args = some a) : a ∈ errsOfArgs args := by
  unfold getArgError at h
  split at h
  · split at h
    next n arg hget heq =>
      cases h
      exact List.mem_filterMap.mpr ⟨_, List.get?_mem heq, rfl⟩
    next => cases h
  · cases h

/-- The formatting arguments are a prefix of the variadic list, so
their error values are among the error values of the whole list. -/
theorem errsOfArgs_take_subset (l : List Arg) (c : Nat) :
    errsOfArgs (l.take c) ⊆ errsOfArgs l :=
  ((l.take_sublist c).filterMap _).subset

/-- On realizable error values the wrapper test of the source agrees
with the carries-stack capability of the specification. -/
theorem realizable_isWrapper_eq_hasStack {e : Err} (h : Realizable e) :
    isWrapperB e = hasStack e := by
  induction h with
  | baseR m => rfl
  | fmtNoneR m => rfl
  | fmtSomeR m _ ih => simpa [isWrapperB, hasStack] using ih
  | wrappedR fs _ hw ih => simp [isWrapperB, hasStack, ← ih, hw]
  | stackedR fs st _ _ => rfl
  | joinR _ _ => rfl

/-- The central invariant of the construction entry points: every
result is a wrapper-topped node and its chain carries exactly one
snapshot; permissible inputs are additionally allowed to be bare
sentinel leaves. -/
theorem built_invariant {b : Bool} {e : Err} (h : Built b e) :
    (GoodTop e ∧ chainCountStacks e = 1) ∨
    (b = false ∧ ∃ m, e = .base m) := by
  induction h with
  | seedB m => exact Or.inr ⟨rfl, m, rfl⟩
  | ofBuilt _ ih =>
    rcases ih with hg | ⟨hb, _⟩
    · exact Or.inl hg
    · cases hb
  | wrapB site options h ih =>
    left
    rcases ih with ⟨hg, hc⟩ | ⟨_, m, rfl⟩
    · have hw := hg.isWrapper
      rw [wrapNonNil, hw]
      simp only [if_true]
      exact ⟨Or.inl ⟨_, _, rfl⟩, by simpa [chainCountStacks] using hc⟩
    · rw [wrapNonNil]
      simp only [isWrapperB, if_false, Bool.false_eq_true]
      exact ⟨Or.inr ⟨_, _, _, rfl, rfl⟩, rfl⟩
  | @errorfB site message l hmem ih =>
    left
    rw [Errorf]
    cases hga : getArgError message (splitArgsAndOptions l).1 with
    | none =>
      have hfmt : fmtErrorf message (splitArgsAndOptions l).1 = .fmtE message none := by
        rw [fmtErrorf, hga]
      dsimp only
      simp only [hfmt]
      exact ⟨Or.inr ⟨_, _, _, rfl, rfl⟩, rfl⟩
    | some a =>
      have hamem : a ∈ errsOfArgs l :=
        errsOfArgs_take_subset _ _ (getArgError_mem hga)
      have hfmt : fmtErrorf message (splitArgsAndOptions l).1 = .fmtE message (some a) := by
        rw [fmtErrorf, hga]
      dsimp only
      rcases ih a hamem with ⟨hg, hc⟩ | ⟨_, m, rfl⟩
      · have hw := hg.isWrapper
        rw [hw]
        simp only [if_true, hfmt]
        refine ⟨Or.inl ⟨_, _, rfl⟩, ?_⟩
        simpa [chainCountStacks] using hc
      · simp only [isWrapperB, if_false, Bool.false_eq_true, hfmt]
        exact ⟨Or.inr ⟨_, _, _, rfl, rfl⟩, rfl⟩
  | @joinB site errs r hmem hjoin ih =>
    left
    rw [Join] at hjoin
    rcases hfm : List.filterMap id errs with _ | ⟨e1, _ | ⟨e2, t2⟩⟩ <;> rw [hfm] at hjoin
    · cases hjoin
    · have inv := ih e1 (hfm ▸ List.mem_cons_self e1 [])
      have hjoin' :
          (if isWrapperB e1 = true then some e1
           else some (Err.stackedE [] site e1)) = some r := hjoin
      cases hw : isWrapperB e1 with
      | true =>
        rw [hw] at hjoin'
        simp only [if_true, Option.some.injEq] at hjoin'
        subst hjoin'
        rcases inv with hg | ⟨_, m, rfl⟩
        · exact hg
        · simp [isWrapperB] at hw
      | false =>
        rw [hw] at hjoin'
        simp only [Bool.false_eq_true, if_false, Option.some.injEq] at hjoin'
        subst hjoin'
        refine ⟨Or.inr ⟨_, _, _, rfl, hw⟩, ?_⟩
        rcases inv with ⟨hg, _⟩ | ⟨_, m, rfl⟩
        · rw [hg.isWrapper] at hw; cases hw
        · rfl
    · have hjoin' :
        some (Err.stackedE [] site (Err.joinE (e1 :: e2 :: t2))) = some r := hjoin
      cases hjoin'
      exact ⟨Or.inr ⟨_, _, _, rfl, rfl⟩, rfl⟩
  | errorCB site message =>
    exact Or.inl ⟨Or.inr ⟨[], site, .base message, rfl, rfl⟩, rfl⟩

/-- Mapping to some and filtering the nils back out is the identity. -/
theorem filterMap_id_map_some (es : List Err) :
    (es.map some).filterMap id = es := by
  induction es with
  | nil => rfl
  | cons e es ih => simp [ih]

/-- Emptying the member lists of join nodes along the chain does not
change the events pushed by the Log traversal. -/
theorem logEvents_pruneJoins : ∀ e : Err,
    logEvents (pruneJoins e) = logEvents e
  | .base _ => rfl
  | .fmtE _ none => rfl
  | .fmtE _ (some i) => by
    simp [pruneJoins, logEvents, logEvents_pruneJoins i]
  | .wrappedE fs i => by
    simp [pruneJoins, logEvents, logEvents_pruneJoins i]
  | .stackedE fs st i => by
    simp [pruneJoins, logEvents, logEvents_pruneJoins i]
  | .joinE _ => rfl

/-- Emptying the member lists of join nodes along the chain does not
change the map built by the serialization traversal of
wrapped.MarshalJSON. -/
theorem marshalWalk_pruneJoins : ∀ (e : Err) (m : MapW),
    marshalWalk (pruneJoins e) m = marshalWalk e m
  | .base _, _ => rfl
  | .fmtE _ none, _ => rfl
  | .fmtE _ (some i), m => by
    simp [pruneJoins, marshalWalk, marshalWalk_pruneJoins i]
  | .wrappedE fs i, m => by
    simp [pruneJoins, marshalWalk, marshalWalk_pruneJoins i]
  | .stackedE fs st i, m => by
    simp [pruneJoins, marshalWalk, marshalWalk_pruneJoins i]
  | .joinE _, _ => rfl

/-! ## The claims -/

/-- C1: for every error chain built purely through the construction
entry points (Wrap, Errorf, Join, the message-with-stack constructor),
walking the chain from the outermost node via repeated single-target
Unwrap encounters exactly one node carrying a stack snapshot,
regardless of how many times the chain is wrapped. -/
theorem claim1_single_stack_in_built_chain {e : Err} (h : Built true e) :
    chainCountStacks e = 1 := by
  rcases built_invariant h with ⟨_, hc⟩ | ⟨hb, _⟩
  · exact hc
  · cases hb

theorem claim1_single_stack_in_built_chain_witness :
    chainCountStacks (.stackedE [] [2] (.base "m")) = 1 :=
  claim1_single_stack_in_built_chain (Built.errorCB [2] "m")

/-- C2: for every non-nil realizable error and every option list, Wrap
returns a fields-only node capturing no new snapshot exactly when the
existing chain already carries a stack snapshot, and otherwise a node
owning the supplied fields and a snapshot newly captured at the call
site. -/
theorem claim2_wrap_idempotence (site : Stack) (options : List Opt) {e : Err}
    (h : Realizable e) :
    (hasStack e = true →
      Wrap site options (some e) =
        some (.wrappedE (newOptions options).fields e)) ∧
    (hasStack e = false →
      Wrap site options (some e) =
        some (.stackedE (newOptions options).fields site e)) := by
  have hw := realizable_isWrapper_eq_hasStack h
  constructor <;> intro hs <;> rw [Wrap, wrapNonNil, hw, hs] <;> simp

theorem claim2_wrap_idempotence_witness :
    hasStack (Err.stackedE [] [5] (.base "x")) = true ∧
    Wrap [9] [] (some (.stackedE [] [5] (.base "x"))) =
      some (.wrappedE [] (.stackedE [] [5] (.base "x"))) :=
  ⟨rfl,
    (claim2_wrap_idempotence [9] []
      (Realizable.stackedR [] [5] (Realizable.baseR "x"))).1 rfl⟩

/-- C4 as stated is false: when the single non-nil member already
carries a stack snapshot, Join returns the member itself, so the
result gains no stack frame captured at the Join call site.  Concrete
input: the member is a stacked node whose only frame is 5 and the Join
site frame is 3; the result is the member unchanged and no frame of
its chain comes from the Join site. -/
theorem claim4_counterexample :
    Join [3] [some (.stackedE [] [5] (.base "x"))] =
      some (.stackedE [] [5] (.base "x")) ∧
    (3 : PC) ∉ chainFrames (.stackedE [] [5] (.base "x")) := by
  exact ⟨rfl, by decide⟩

/-- C4 amended: Join of exactly one non-nil realizable error is
observably identical to the member for message text and
sentinel-matching; when the member's chain does not already carry a
stack snapshot, the result additionally gains the snapshot captured at
the Join call site, prepended to the chain's frames; when the chain
already carries one, Join returns the member itself unchanged. -/
theorem claim4_amended_join_single (site : Stack) {e : Err}
    (h : Realizable e) :
    (hasStack e = false →
      Join site [some e] = some (.stackedE [] site e) ∧
      errMsg (.stackedE [] site e) = errMsg e ∧
      (∀ m : String,
        isMatch (.stackedE [] site e) (.base m) = isMatch e (.base m)) ∧
      chainFrames (.stackedE [] site e) = site ++ chainFrames e) ∧
    (hasStack e = true → Join site [some e] = some e) := by
  have hw := realizable_isWrapper_eq_hasStack h
  have hred : Join site [some e] =
      (if isWrapperB e = true then some e
       else some (.stackedE [] site e)) := rfl
  constructor
  · intro hs
    refine ⟨?_, rfl, ?_, ?_⟩
    · rw [hred, hw, hs]
      simp
    · intro m
      rw [isMatch.eq_def]
      dsimp only
      have hb : (Err.stackedE [] site e == Err.base m) = false := rfl
      rw [hb]
      simp
    · simp [chainFrames, chainStacks]
  · intro hs
    rw [hred, hw, hs]
    simp

theorem claim4_amended_join_single_witness :
    hasStack (Err.base "x") = false ∧
    Join [3] [some (.base "x")] = some (.stackedE [] [3] (.base "x")) ∧
    errMsg (Err.stackedE [] [3] (.base "x")) = errMsg (.base "x") ∧
    chainFrames (Err.stackedE [] [3] (.base "x")) =
      [3] ++ chainFrames (.base "x") := by
  have h := (claim4_amended_join_single [3] (Realizable.baseR "x")).1 rfl
  exact ⟨rfl, h.1, h.2.1, h.2.2.2⟩

/-- C6: Join of two or more non-nil errors yields the stacked node
over the join of the members; its message text is the newline-joined
concatenation of the members' texts and the chain-match predicate
matches every member. -/
theorem claim6_join_concat (site : Stack) (es : List Err)
    (h : 2 ≤ es.length) :
    Join site (es.map some) = some (.stackedE [] site (.joinE es)) ∧
    errMsg (.stackedE [] site (.joinE es)) =
      String.intercalate "\n" (es.map errMsg) ∧
    ∀ e ∈ es, isMatch (.stackedE [] site (.joinE es)) e = true := by
  obtain ⟨a, b, t, rfl⟩ : ∃ a b t, es = a :: b :: t := by
    match es, h with
    | a :: b :: t, _ => exact ⟨a, b, t, rfl⟩
  refine ⟨?_, ?_, ?_⟩
  · rw [Join, filterMap_id_map_some]
  · rw [errMsg, errMsg, errMsgList_eq_map]
  · intro e he
    have h1 : isMatchAny (a :: b :: t) e = true :=
      isMatchAny_of_mem he (isMatch_refl e)
    rw [isMatch.eq_def]
    dsimp only
    rw [isMatch.eq_def]
    dsimp only
    rw [h1]
    simp

theorem claim6_join_concat_witness :
    Join [1] ([Err.base "a", Err.base "b"].map some) =
      some (.stackedE [] [1] (.joinE [.base "a", .base "b"])) ∧
    errMsg (Err.stackedE [] [1] (.joinE [.base "a", .base "b"])) =
      String.intercalate "\n" ([Err.base "a", Err.base "b"].map errMsg) ∧
    ∀ e ∈ [Err.base "a", Err.base "b"],
      isMatch (.stackedE [] [1] (.joinE [.base "a", .base "b"])) e = true :=
  claim6_join_concat [1] [.base "a", .base "b"] (by decide)

/-- C7: neither the Log traversal nor the serialization traversal of
wrapped.MarshalJSON recurses into joined peers: emptying the member
lists of every join node on the chain leaves the events pushed by Log
and the map built by the MarshalJSON walk unchanged, a join node
itself pushes nothing to either sink, and the peers contribute only
their message texts to the concatenated message. -/
theorem claim7_join_opaque_to_sink (e : Err) (es : List Err) (m : MapW) :
    (Log (some e)).1 = (Log (some (pruneJoins e))).1 ∧
    (Log (some (.joinE es))).1 = [] ∧
    marshalWalk e m = marshalWalk (pruneJoins e) m ∧
    marshalWalk (.joinE es) m = m ∧
    (Log (some (.joinE es))).2 =
      some (String.intercalate "\n" (es.map errMsg)) := by
  refine ⟨?_, rfl, ?_, rfl, ?_⟩
  · show logEvents e = logEvents (pruneJoins e)
    rw [logEvents_pruneJoins]
  · rw [marshalWalk_pruneJoins]
  · show some (errMsg (.joinE es)) = _
    rw [errMsg, errMsgList_eq_map]

/-- C8: Wrap of nil returns nil, and Join of a list whose members are
all nil (including the empty list) returns nil; no node is
constructed. -/
theorem claim8_nil_handling (site : Stack) (options : List Opt)
    (errs : List (Option Err)) (h : ∀ x ∈ errs, x = none) :
    Wrap site options none = none ∧ Join site errs = none := by
  refine ⟨rfl, ?_⟩
  have hfm : errs.filterMap id = [] := by
    rw [List.filterMap_eq_nil_iff]
    exact h
  rw [Join, hfm]

theorem claim8_nil_handling_witness :
    Wrap [1] [] none = none ∧ Join [1] [none, none] = none :=
  claim8_nil_handling [1] [] [none, none] (by simp)

/-! ## Lemmas about the mapWriter model -/

theorem mget_cons (p : String × JVal) (t : MapW) (k : String) :
    mget (p :: t) k = if p.1 = k then some p.2 else mget t k := by
  by_cases h : p.1 = k <;> simp [mget, List.find?_cons, h]

theorem mget_append_single (t : MapW) (k k' : String) (v : JVal) :
    mget (t ++ [(k, v)]) k' =
      if mget t k' = none then (if k = k' then some v else none)
      else mget t k' := by
  induction t with
  | nil => by_cases h : k = k' <;> simp [mget_cons, mget, h]
  | cons p t ih =>
    rw [List.cons_append, mget_cons, mget_cons]
    by_cases hp : p.1 = k'
    · simp [hp]
    · simp only [hp, if_false]
      exact ih

theorem mget_map_replace {t : MapW} {k k' : String} {v : JVal}
    (h : k' ≠ k) :
    mget (t.map fun q => if q.1 = k then (k, v) else q) k' = mget t k' := by
  induction t with
  | nil => rfl
  | cons p t ih =>
    simp only [List.map_cons]
    by_cases hp : p.1 = k
    · rw [if_pos hp, mget_cons, mget_cons,
        if_neg (show ¬(k, v).1 = k' from fun hh => h hh.symm),
        if_neg (show ¬p.1 = k' from by rw [hp]; exact fun hh => h hh.symm)]
      exact ih
    · rw [if_neg hp, mget_cons, mget_cons]
      by_cases hk : p.1 = k'
      · rw [if_pos hk, if_pos hk]
      · rw [if_neg hk, if_neg hk]
        exact ih

/-- Go map assignment then lookup: the just-written key reads the new
value and other keys are unaffected. -/
theorem mget_mset (m : MapW) (k k' : String) (v : JVal) :
    mget (mset m k v) k' = if k' = k then some v else mget m k' := by
  induction m with
  | nil =>
    rw [show mset [] k v = [(k, v)] from rfl, mget_cons]
    by_cases h : k' = k
    · rw [if_pos h, if_pos (show (k, v).1 = k' from h.symm)]
    · rw [if_neg h, if_neg (show ¬(k, v).1 = k' from fun hh => h hh.symm)]
  | cons p t ih =>
    by_cases hp : p.1 = k
    · have hmset : mset (p :: t) k v =
          (k, v) :: (t.map fun q => if q.1 = k then (k, v) else q) := by
        simp [mset, List.any_cons, hp]
      rw [hmset, mget_cons]
      by_cases h : k' = k
      · rw [if_pos (show (k, v).1 = k' from h.symm), if_pos h]
      · rw [if_neg (show ¬(k, v).1 = k' from fun hh => h hh.symm), if_neg h,
          mget_map_replace h, mget_cons,
          if_neg (show ¬p.1 = k' from by rw [hp]; exact fun hh => h hh.symm)]
    · have hmset : mset (p :: t) k v = p :: mset t k v := by
        have hcond : ((p :: t).any fun q => decide (q.1 = k)) =
            (t.any fun q => decide (q.1 = k)) := by
          simp [List.any_cons, hp]
        simp only [mset, hcond]
        by_cases ha : (t.any fun q => decide (q.1 = k)) = true
        · rw [if_pos ha, if_pos ha, List.map_cons, if_neg hp]
        · rw [if_neg ha, if_neg ha, List.cons_append]
      rw [hmset, mget_cons, mget_cons, ih]
      by_cases h : k' = k
      · subst h
        rw [if_neg hp]
        simp
      · rw [if_neg h, if_neg h]

theorem getLast?_cons_is_some {α : Type} :
    ∀ (a : α) (t : List α), ∃ x, (a :: t).getLast? = some x
  | a, [] => ⟨a, rfl⟩
  | _, b :: t => by
    rw [List.getLast?_cons_cons]
    exact getLast?_cons_is_some b t

theorem getLast?_cons_match {α : Type} (a : α) (l : List α) :
    (a :: l).getLast? =
      match l.getLast? with
      | some x => some x
      | none => some a := by
  cases l with
  | nil => rfl
  | cons b t =>
    obtain ⟨x, hx⟩ := getLast?_cons_is_some b t
    rw [List.getLast?_cons_cons, hx]

theorem getLast?_append_match {α : Type} (l1 l2 : List α) :
    (l1 ++ l2).getLast? =
      match l2.getLast? with
      | some x => some x
      | none => l1.getLast? := by
  cases l2 with
  | nil => simp
  | cons a t =>
    obtain ⟨x, hx⟩ := getLast?_cons_is_some a t
    rw [List.getLast?_append_cons, hx]

/-- Lookup after pushing a field list into the map: the last written
occurrence of the key wins, and absent keys fall through to the
original map. -/
theorem mget_logFieldsTo (fs : List Field) (m : MapW) (k : String) :
    mget (logFieldsTo fs m) k =
      match (fs.filter (fun f => f.key = k)).getLast? with
      | some f => some f.jval
      | none => mget m k := by
  induction fs generalizing m with
  | nil => rfl
  | cons f t ih =>
    rw [logFieldsTo, ih]
    by_cases hf : f.key = k
    · rw [List.filter_cons_of_pos (by simp [hf]), getLast?_cons_match]
      cases hl : (t.filter fun g => decide (g.key = k)).getLast? with
      | some g => rfl
      | none =>
        rw [mget_mset, if_pos hf.symm]
    · rw [List.filter_cons_of_neg (by simp [hf])]
      cases hl : (t.filter fun g => decide (g.key = k)).getLast? with
      | some g => rfl
      | none =>
        rw [mget_mset, if_neg (fun hh => hf hh.symm)]

/-- Lookup of an ordinary key after the chain walk of
wrapped.MarshalJSON: the last field with that key on the
outermost-first traversal wins. -/
theorem mget_marshalWalk_ordinary :
    ∀ (e : Err) (m : MapW) (k : String), k ≠ "stackTrace" →
    mget (marshalWalk e m) k =
      match ((chainFields e).filter (fun f => f.key = k)).getLast? with
      | some f => some f.jval
      | none => mget m k
  | .base _, m, k, _ => rfl
  | .fmtE _ none, m, k, _ => rfl
  | .fmtE _ (some i), m, k, hk => by
    rw [marshalWalk]
    exact mget_marshalWalk_ordinary i m k hk
  | .wrappedE fs i, m, k, hk => by
    rw [marshalWalk, mget_marshalWalk_ordinary i _ k hk]
    rw [show chainFields (.wrappedE fs i) = fs ++ chainFields i from rfl,
      List.filter_append, getLast?_append_match]
    cases (List.filter (fun f => decide (f.key = k)) (chainFields i)).getLast? with
    | some g => rfl
    | none => rw [mget_logFieldsTo]
  | .stackedE fs st i, m, k, hk => by
    rw [marshalWalk, mget_marshalWalk_ordinary i _ k hk]
    rw [show chainFields (.stackedE fs st i) = fs ++ chainFields i from rfl,
      List.filter_append, getLast?_append_match]
    cases (List.filter (fun f => decide (f.key = k)) (chainFields i)).getLast? with
    | some g => rfl
    | none =>
      rw [mget_mset, if_neg hk, mget_logFieldsTo]
  | .joinE _, m, k, _ => rfl

/-- Lookup of the stackTrace key after the chain walk: when no field
key collides with it, the last snapshot on the chain wins. -/
theorem mget_marshalWalk_stackTrace :
    ∀ (e : Err) (m : MapW),
    (∀ f ∈ chainFields e, f.key ≠ "stackTrace") →
    mget (marshalWalk e m) "stackTrace" =
      match (chainStacks e).getLast? with
      | some st => some (JVal.traceJ st)
      | none => mget m "stackTrace"
  | .base _, m, _ => rfl
  | .fmtE _ none, m, _ => rfl
  | .fmtE _ (some i), m, h => by
    rw [marshalWalk]
    exact mget_marshalWalk_stackTrace i m h
  | .wrappedE fs i, m, h => by
    have hfs : ∀ f ∈ fs, f.key ≠ "stackTrace" := fun f hf =>
      h f (List.mem_append_left _ hf)
    have hi : ∀ f ∈ chainFields i, f.key ≠ "stackTrace" := fun f hf =>
      h f (List.mem_append_right _ hf)
    rw [marshalWalk, mget_marshalWalk_stackTrace i _ hi,
      show chainStacks (.wrappedE fs i) = chainStacks i from rfl]
    cases (chainStacks i).getLast? with
    | some st => rfl
    | none =>
      rw [mget_logFieldsTo]
      have hfil : fs.filter (fun f => f.key = "stackTrace") = [] := by
        rw [List.filter_eq_nil_iff]
        intro f hf
        simpa using hfs f hf
      rw [hfil]
      rfl
  | .stackedE fs st i, m, h => by
    have hfs : ∀ f ∈ fs, f.key ≠ "stackTrace" := fun f hf =>
      h f (List.mem_append_left _ hf)
    have hi : ∀ f ∈ chainFields i, f.key ≠ "stackTrace" := fun f hf =>
      h f (List.mem_append_right _ hf)
    rw [marshalWalk, mget_marshalWalk_stackTrace i _ hi,
      show chainStacks (.stackedE fs st i) = st :: chainStacks i from rfl,
      getLast?_cons_match]
    cases (chainStacks i).getLast? with
    | some st' => rfl
    | none =>
      rw [mget_mset, if_pos rfl]
  | .joinE _, m, _ => rfl

/-- C3 as stated is false: when two fields attached at different nodes
share a key, the value present in the marshalled object is the one of
the more-inner node, not the more-outer one.  Concrete input: a chain
whose outer node attaches k with value outer and whose inner node
attaches k with value inner marshals k to inner, which differs from
the outer value. -/
theorem claim3_counterexample :
    (MarshalJSON (.wrappedE [.stringF "k" "outer"]
        (.stackedE [.stringF "k" "inner"] [5] (.base "x")))).map
        (fun m => mget m "k") =
      some (some (.sJ "inner")) ∧
    JVal.sJ "inner" ≠ JVal.sJ "outer" := by
  exact ⟨rfl, by decide⟩

/-- C3 amended: for every chain built through the entry points whose
field keys avoid the reserved keys error and stackTrace, JSON
marshalling produces one flat object mapping error to the chain's
message text, stackTrace to the frames of the single snapshot in
capture order, and each field key to the value of the last field with
that key in outermost-first traversal order — so when two fields at
different nodes share a key, the value of the more-inner node (the one
visited later) is the one present. -/
theorem claim3_amended_flat_json {e : Err} (h : Built true e)
    (hres : ∀ f ∈ chainFields e, f.key ≠ "error" ∧ f.key ≠ "stackTrace") :
    ∃ m, MarshalJSON e = some m ∧
      mget m "error" = some (.sJ (errMsg e)) ∧
      (∃ st, chainStacks e = [st] ∧ mget m "stackTrace" = some (.traceJ st)) ∧
      ∀ k, k ≠ "error" → k ≠ "stackTrace" →
        mget m k =
          match ((chainFields e).filter (fun f => f.key = k)).getLast? with
          | some f => some f.jval
          | none => none := by
  have hinv := built_invariant h
  have hne : ("error" : String) ≠ "stackTrace" := by decide
  rcases hinv with ⟨hg, hc⟩ | ⟨hb, _⟩
  swap
  · cases hb
  have hcf_err : (chainFields e).filter (fun f => f.key = "error") = [] := by
    rw [List.filter_eq_nil_iff]
    intro f hf
    simpa using (hres f hf).1
  have hcf_st : ∀ f ∈ chainFields e, f.key ≠ "stackTrace" :=
    fun f hf => (hres f hf).2
  obtain ⟨st0, hst0⟩ : ∃ st, chainStacks e = [st] := by
    rw [chainCountStacks_eq_length] at hc
    exact List.length_eq_one.mp hc
  rcases hg with ⟨fs, i, rfl⟩ | ⟨fs, st, i, rfl, hw⟩
  · refine ⟨_, rfl, ?_, ?_, ?_⟩
    · rw [mget_marshalWalk_ordinary _ _ _ hne, hcf_err]
      rw [mget_cons, if_pos rfl]
      rfl
    · refine ⟨st0, hst0, ?_⟩
      rw [mget_marshalWalk_stackTrace _ _ hcf_st, hst0]
      rfl
    · intro k hk1 hk2
      rw [mget_marshalWalk_ordinary _ _ _ hk2]
      cases ((chainFields (.wrappedE fs i)).filter
          (fun f => decide (f.key = k))).getLast? with
      | some g => rfl
      | none =>
        rw [mget_cons, if_neg (fun hh => hk1 hh.symm)]
        rfl
  · have hcfi : chainFields i = [] := chainFields_eq_nil_of_not_isWrapper hw
    have hcsi : chainStacks i = [] := chainStacks_eq_nil_of_not_isWrapper hw
    have hcf : chainFields (.stackedE fs st i) = fs := by
      rw [show chainFields (.stackedE fs st i) = fs ++ chainFields i from rfl,
        hcfi, List.append_nil]
    have hcs : chainStacks (.stackedE fs st i) = [st] := by
      rw [show chainStacks (.stackedE fs st i) = st :: chainStacks i from rfl, hcsi]
    have hfs_err : fs.filter (fun f => f.key = "error") = [] := by
      rw [hcf] at hcf_err
      exact hcf_err
    have hfs_st : fs.filter (fun f => f.key = "stackTrace") = [] := by
      rw [List.filter_eq_nil_iff]
      intro f hf
      have hmem : f ∈ chainFields (.stackedE fs st i) := by
        rw [hcf]
        exact hf
      simpa using hcf_st f hmem
    refine ⟨_, rfl, ?_, ?_, ?_⟩
    · rw [mget_logFieldsTo, hfs_err]
      rw [mget_mset, if_neg hne, mget_cons, if_pos rfl]
      rfl
    · refine ⟨st0, hst0, ?_⟩
      have hst : st0 = st := by
        rw [hcs] at hst0
        cases hst0
        rfl
      subst hst
      rw [mget_logFieldsTo, hfs_st]
      rw [mget_mset, if_pos rfl]
      rfl
    · intro k hk1 hk2
      rw [mget_logFieldsTo, hcf]
      cases (fs.filter (fun f => decide (f.key = k))).getLast? with
      | some g => rfl
      | none =>
        rw [mget_mset, if_neg hk2, mget_cons, if_neg (fun hh => hk1 hh.symm)]
        rfl

theorem claim3_amended_flat_json_witness :
    ∃ m, MarshalJSON (Err.wrappedE [.stringF "k" "outer"]
        (.stackedE [.stringF "k" "inner"] [5] (.base "x"))) = some m ∧
      mget m "error" = some (.sJ "x") ∧
      mget m "stackTrace" = some (.traceJ [5]) ∧
      mget m "k" = some (.sJ "inner") := by
  obtain ⟨m, hm, he, ⟨st, hcs, hst⟩, hk⟩ :=
    claim3_amended_flat_json
      (e := Err.wrappedE [.stringF "k" "outer"]
        (.stackedE [.stringF "k" "inner"] [5] (.base "x")))
      (Built.wrapB [7] [.fieldOpt (.stringF "k" "outer")]
        (Built.ofBuilt (Built.wrapB [5] [.fieldOpt (.stringF "k" "inner")]
          (Built.seedB "x"))))
      (by decide)
  refine ⟨m, hm, he, ?_, ?_⟩
  · have : st = [5] := by
      rw [show chainStacks (Err.wrappedE [.stringF "k" "outer"]
        (.stackedE [.stringF "k" "inner"] [5] (.base "x"))) = [[5]] from rfl] at hcs
      cases hcs
      rfl
    rw [← this]
    exact hst
  · have := hk "k" (by decide) (by decide)
    rw [this]
    rfl

/-! ## Lemmas about the format scanner -/

theorem verbs_cons (c : Char) (rest : List Char) :
    verbs (c :: rest) = if c = '%' then verbsT rest else verbs rest := by
  cases rest <;> by_cases hc : c = '%' <;> simp [verbs, verbsT, hc]

theorem fwAux_cons_w (vs : List Char) (i : Int) :
    fwAux ('w' :: vs) i = i + 1 := by
  simp [fwAux, List.findIdx_cons]

theorem fwAux_cons_ne {c : Char} (vs : List Char) (i : Int) (hc : ¬c = 'w') :
    fwAux (c :: vs) i = fwAux vs (i + 1) := by
  have h1 : ¬ 'w' = c := fun hh => hc hh.symm
  have hmem : ('w' ∈ c :: vs) ↔ ('w' ∈ vs) := by simp [List.mem_cons, h1]
  have hfind : List.findIdx (fun x => x = 'w') (c :: vs) =
      List.findIdx (fun x => x = 'w') vs + 1 := by
    rw [List.findIdx_cons]
    simp [hc]
  rw [fwAux, fwAux]
  by_cases hw : 'w' ∈ vs
  · rw [if_pos (hmem.mpr hw), if_pos hw, hfind]
    push_cast
    ring
  · rw [if_neg (fun hh => hw (hmem.mp hh)), if_neg hw]

mutual

theorem go_false_eq : ∀ (rest : List Char) (i : Int),
    getErrorIndex.go rest i false = fwAux (verbs rest) i
  | [], i => by simp [getErrorIndex.go, verbs, fwAux]
  | c :: rest, i => by
    by_cases hc : c = '%'
    · subst hc
      have h1 : getErrorIndex.go ('%' :: rest) i false =
          getErrorIndex.go rest i true := by
        simp [getErrorIndex.go]
      rw [h1, go_true_eq rest i, verbs_cons]
      simp
    · have h1 : getErrorIndex.go (c :: rest) i false =
          getErrorIndex.go rest i false := by
        simp [getErrorIndex.go, hc]
      rw [h1, go_false_eq rest i, verbs_cons, if_neg hc]

theorem go_true_eq : ∀ (rest : List Char) (i : Int),
    getErrorIndex.go rest i true = fwAux (verbsT rest) i
  | [], i => by simp [getErrorIndex.go, verbsT, fwAux]
  | c :: rest, i => by
    by_cases hc : c = '%'
    · subst hc
      have h1 : getErrorIndex.go ('%' :: rest) i true =
          getErrorIndex.go rest i false := by
        simp [getErrorIndex.go]
      have h2 : verbsT ('%' :: rest) = verbs rest := by
        simp [verbsT]
      rw [h1, go_false_eq rest i, h2]
    · by_cases hw : c = 'w'
      · subst hw
        have h1 : getErrorIndex.go ('w' :: rest) i true = i + 1 := by
          simp [getErrorIndex.go, hc]
        have h2 : verbsT ('w' :: rest) = 'w' :: verbs rest := by
          simp [verbsT, hc]
        rw [h1, h2, fwAux_cons_w]
      · have h1 : getErrorIndex.go (c :: rest) i true =
            getErrorIndex.go rest (i + 1) false := by
          simp [getErrorIndex.go, hc, hw]
        have h2 : verbsT (c :: rest) = c :: verbs rest := by
          simp [verbsT, hc]
        rw [h1, go_false_eq rest (i + 1), h2, fwAux_cons_ne _ _ hw]

end

/-- C5: the embedded-error position of Errorf is the operand index of
the first percent-w verb of the format string (first match wins); when
the argument at that position is an error whose chain already carries
a stack snapshot, Errorf returns a fields-only node over the formatted
error without capturing a snapshot, and otherwise it returns a stacked
node with the snapshot captured at the call site. -/
theorem claim5_errorf_first_marker (site : Stack) (message : String)
    (l : List Arg) (h : ∀ e ∈ errsOfArgs l, Realizable e) :
    getErrorIndex message = firstWVerb message ∧
    (∀ a, getArgError message (splitArgsAndOptions l).1 = some a →
      (hasStack a = true →
        Errorf site message l =
          .wrappedE (newOptions (splitArgsAndOptions l).2).fields
            (fmtErrorf message (splitArgsAndOptions l).1)) ∧
      (hasStack a = false →
        Errorf site message l =
          .stackedE (newOptions (splitArgsAndOptions l).2).fields site
            (fmtErrorf message (splitArgsAndOptions l).1))) ∧
    (getArgError message (splitArgsAndOptions l).1 = none →
      Errorf site message l =
        .stackedE (newOptions (splitArgsAndOptions l).2).fields site
          (fmtErrorf message (splitArgsAndOptions l).1)) := by
  refine ⟨?_, ?_, ?_⟩
  · rw [getErrorIndex, go_false_eq, fwAux, firstWVerb]
    by_cases hw : 'w' ∈ verbs message.data
    · rw [if_pos hw, if_pos hw]
      omega
    · rw [if_neg hw, if_neg hw]
  · intro a hga
    have hra : Realizable a :=
      h a (errsOfArgs_take_subset _ _ (getArgError_mem hga))
    have hwa := realizable_isWrapper_eq_hasStack hra
    constructor <;> intro hs <;> rw [Errorf, hga] <;> dsimp only <;>
      rw [hwa, hs] <;> simp
  · intro hga
    rw [Errorf, hga]

theorem claim5_errorf_first_marker_witness :
    getErrorIndex "%w" = firstWVerb "%w" ∧
    getArgError "%w"
      (splitArgsAndOptions [Arg.valA (.errV (.stackedE [] [5] (.base "x")))]).1 =
      some (.stackedE [] [5] (.base "x")) ∧
    hasStack (Err.stackedE [] [5] (.base "x")) = true ∧
    Errorf [9] "%w" [Arg.valA (.errV (.stackedE [] [5] (.base "x")))] =
      .wrappedE []
        (fmtErrorf "%w"
          (splitArgsAndOptions [Arg.valA (.errV (.stackedE [] [5] (.base "x")))]).1) := by
  have h := claim5_errorf_first_marker [9] "%w"
    [Arg.valA (.errV (.stackedE [] [5] (.base "x")))]
    (by
      intro e he
      have he2 : e = Err.stackedE [] [5] (.base "x") := by
        simpa [errsOfArgs] using he
      subst he2
      exact Realizable.stackedR [] [5] (Realizable.baseR "x"))
  exact ⟨h.1, rfl, rfl, (h.2.1 _ rfl).1 rfl⟩

/-- C9 as stated is false: an unresolvable frame resolves its file to
the sentinel "unknown", not to the empty string, and since the file is
then non-empty, the JSON serialization keeps the file sub-key (only
the line sub-key is omitted).  Concrete input: frame 1 under the
resolver that resolves no counter. -/
theorem claim9_counterexample :
    frameFile (fun _ => none) 1 = "unknown" ∧
    frameFile (fun _ => none) 1 ≠ "" ∧
    frameMarshalJSON (fun _ => none) 1 =
      [("function", .sJ "unknown"), ("file", .sJ "unknown")] ∧
    "file" ∈ (frameMarshalJSON (fun _ => none) 1).map Prod.fst := by
  have h3 : frameMarshalJSON (fun _ => none) 1 =
      [("function", JVal.sJ "unknown"), ("file", JVal.sJ "unknown")] := rfl
  refine ⟨rfl, by decide, h3, ?_⟩
  rw [h3]
  decide

/-- C9 amended: a frame whose program counter cannot be resolved
yields function name unknown, file unknown (not empty) and line zero;
it renders as unknown in text output; its JSON serialization omits the
line sub-key but keeps the file sub-key, mapped to the unknown
sentinel. -/
theorem claim9_amended_unresolvable_frame (R : Resolver) (f : Nat)
    (h : R (framePC f) = none) :
    frameName R f = "unknown" ∧ frameFile R f = "unknown" ∧
    frameLine R f = 0 ∧ frameString R f = "unknown" ∧
    frameMarshalJSON R f =
      [("function", .sJ "unknown"), ("file", .sJ "unknown")] := by
  have hn : frameName R f = "unknown" := by rw [frameName, h]
  have hf : frameFile R f = "unknown" := by rw [frameFile, h]
  have hl : frameLine R f = 0 := by rw [frameLine, h]
  refine ⟨hn, hf, hl, ?_, ?_⟩
  · rw [frameString, if_pos hn, hn]
  · rw [frameMarshalJSON, hn, hf, hl]
    rfl

theorem claim9_amended_unresolvable_frame_witness :
    (fun _ => (none : Option FuncInfo)) (framePC 1) = none ∧
    frameName (fun _ => none) 1 = "unknown" ∧
    frameLine (fun _ => none) 1 = 0 ∧
    frameString (fun _ => none) 1 = "unknown" := by
  have h := claim9_amended_unresolvable_frame (fun _ => none) 1 rfl
  exact ⟨rfl, h.1, h.2.2.1, h.2.2.2.1⟩

/-! ## Lemmas about the argument splitter -/

theorem split_go_eq : ∀ (m : List Arg) (n : Nat),
    splitArgsAndOptions.go m n = n - (m.takeWhile Arg.isOpt).length
  | [], n => rfl
  | .optA o :: rest, n => by
    rw [show splitArgsAndOptions.go (Arg.optA o :: rest) n =
        splitArgsAndOptions.go rest (n - 1) from rfl,
      split_go_eq rest (n - 1)]
    have htw : List.takeWhile Arg.isOpt (Arg.optA o :: rest) =
        Arg.optA o :: rest.takeWhile Arg.isOpt := by
      simp [List.takeWhile_cons, Arg.isOpt]
    rw [htw, List.length_cons]
    omega
  | .valA v :: rest, n => by
    rw [show splitArgsAndOptions.go (Arg.valA v :: rest) n = n from rfl]
    have htw : List.takeWhile Arg.isOpt (Arg.valA v :: rest) = [] := by
      simp [List.takeWhile_cons, Arg.isOpt]
    rw [htw]
    rfl

theorem map_optA_extract (m : List Arg) (hm : ∀ a ∈ m, a.isOpt = true) :
    (m.filterMap fun a =>
      match a with
      | .optA o => some o
      | .valA _ => none).map Arg.optA = m := by
  induction m with
  | nil => rfl
  | cons a t ih =>
    cases a with
    | optA o =>
      rw [List.filterMap_cons]
      simp only [List.map_cons]
      rw [ih fun x hx => hm x (List.mem_cons_of_mem _ hx)]
    | valA v =>
      exact absurd (hm _ (List.mem_cons_self _ _)) (by simp [Arg.isOpt])

/-- C10: the options taken by splitArgsAndOptions are exactly the
maximal trailing run of Option-typed values, kept in order: the
formatting arguments followed by the extracted options reassemble the
original list; the extracted options, read back as argument values,
equal the longest all-Option suffix of the list (rtakeWhile), so every
trailing Option is extracted; every element after the cut is an
Option; and every non-Option element lies before the cut — so an
Option value appearing before any non-Option element is passed
through as a formatting argument. -/
theorem claim10_split_args_options (l : List Arg) :
    (splitArgsAndOptions l).1 ++ (splitArgsAndOptions l).2.map Arg.optA = l ∧
    (splitArgsAndOptions l).2.map Arg.optA = l.rtakeWhile Arg.isOpt ∧
    (∀ a ∈ l.drop (splitArgsAndOptions l).1.length, a.isOpt = true) ∧
    (∀ j (hj : j < l.length), (l.get ⟨j, hj⟩).isOpt = false →
      j < (splitArgsAndOptions l).1.length) := by
  obtain ⟨t, ht⟩ := List.rtakeWhile_suffix (p := Arg.isOpt) (l := l)
  have hk : (l.rtakeWhile Arg.isOpt).length =
      (l.reverse.takeWhile Arg.isOpt).length := by
    rw [List.rtakeWhile, List.length_reverse]
  have hlen : t.length + (l.rtakeWhile Arg.isOpt).length = l.length := by
    rw [← List.length_append, ht]
  have hC : splitArgsAndOptions.go l.reverse l.length = t.length := by
    rw [split_go_eq, ← hk]
    omega
  have hsplit1 : (splitArgsAndOptions l).1 = l.take t.length := by
    rw [show (splitArgsAndOptions l).1 =
      l.take (splitArgsAndOptions.go l.reverse l.length) from rfl, hC]
  have hsplit2 : (splitArgsAndOptions l).2 =
      (l.drop t.length).filterMap fun a =>
        match a with
        | .optA o => some o
        | .valA _ => none := by
    rw [show (splitArgsAndOptions l).2 =
      (l.drop (splitArgsAndOptions.go l.reverse l.length)).filterMap _ from rfl, hC]
  have hdrop : l.drop t.length = l.rtakeWhile Arg.isOpt := by
    conv_lhs => rw [← ht]
    exact List.drop_left t _
  have htake : l.take t.length = t := by
    conv_lhs => rw [← ht]
    exact List.take_left t _
  have hlen1 : (splitArgsAndOptions l).1.length = t.length := by
    rw [hsplit1, htake]
  have hallopt : ∀ a ∈ l.drop t.length, a.isOpt = true := by
    intro a ha
    rw [hdrop] at ha
    exact List.mem_rtakeWhile_imp ha
  have hopts : ∀ a ∈ l.drop (splitArgsAndOptions l).1.length, a.isOpt = true := by
    intro a ha
    rw [hlen1] at ha
    exact hallopt a ha
  have hopts2 : (splitArgsAndOptions l).2.map Arg.optA = l.rtakeWhile Arg.isOpt := by
    rw [hsplit2, map_optA_extract _ hallopt]
    exact hdrop
  refine ⟨?_, hopts2, hopts, ?_⟩
  · rw [hsplit1, hsplit2, map_optA_extract _ hallopt]
    exact List.take_append_drop t.length l
  · intro j hj hval
    by_contra hge
    push_neg at hge
    rw [hlen1] at hge
    have hmem : l.get ⟨j, hj⟩ ∈ l.drop (splitArgsAndOptions l).1.length := by
      rw [hlen1]
      have hlt : j - t.length < (l.drop t.length).length := by
        rw [List.length_drop]
        omega
      have hget : (l.drop t.length).get ⟨j - t.length, hlt⟩ = l.get ⟨j, hj⟩ := by
        rw [List.get_drop']
        apply congrArg
        apply Fin.ext
        show t.length + (j - t.length) = j
        omega
      rw [← hget]
      exact List.get_mem _ _ _
    rw [hopts _ hmem] at hval
    cases hval

theorem claim10_split_args_options_witness :
    (splitArgsAndOptions [Arg.optA .skipCaller, Arg.valA (.strV "x"),
        Arg.optA .skipCaller]).1 ++
      (splitArgsAndOptions [Arg.optA .skipCaller, Arg.valA (.strV "x"),
        Arg.optA .skipCaller]).2.map Arg.optA =
      [Arg.optA .skipCaller, Arg.valA (.strV "x"), Arg.optA .skipCaller] :=
  (claim10_split_args_options
    [Arg.optA .skipCaller, Arg.valA (.strV "x"), Arg.optA .skipCaller]).1

end MuonsoftErrors
